import Mathlib

set_option maxRecDepth 10000

namespace LyssaRDSGen

/-- Typed failures of the lower layers, mirroring the kinds of Python exceptions
(ValueError and OverflowError) raised by the source functions. -/
inductive Err where
  | badKeyLength
  | badKeyCharacter (c : Char)
  | byteOverflow
  | invalidPid
  | badDecimal
  | noModularInverse
  deriving DecidableEq

/-- Character set for key encoding (base-24), the source constant KCHARS. -/
def KCHARS : String := "BCDFGHJKMPQRTVWXY2346789"

/-- KCHARS as a list of characters. -/
def kchars : List Char := KCHARS.data

/-- Fuel-indexed loop of encode_pkey (while n > 0: out = KCHARS[n % 24] + out; n //= 24).
The fuel only bounds the iteration count; fuel = n always suffices because the
argument strictly decreases. -/
def encodeLoop : Nat → Nat → List Char
  | 0, _ => []
  | fuel + 1, n =>
    if n = 0 then [] else encodeLoop fuel (n / 24) ++ [kchars.getD (n % 24) 'B']

/-- Base-24 digit characters of n, most significant first, as produced by the
while loop of encode_pkey. -/
def encodeDigits (n : Nat) : List Char := encodeLoop n n

/-- Left padding to 35 characters with KCHARS[0] = 'B', from out.rjust(35, KCHARS[0])
in encode_pkey. -/
def rjust35 (l : List Char) : List Char := List.replicate (35 - l.length) 'B' ++ l

/-- Fuel-indexed chunking into groups of five, the slicing comprehension of
encode_pkey; fuel = length of the list always suffices. -/
def segs5 : Nat → List Char → List (List Char)
  | 0, _ => []
  | fuel + 1, l => if l.isEmpty then [] else l.take 5 :: segs5 fuel (l.drop 5)

/-- Joining of the five-character groups with a dash separator, the
"-".join(segments) of encode_pkey. -/
def joinDash : List (List Char) → List Char
  | [] => []
  | [g] => g
  | g :: g' :: t => g ++ '-' :: joinDash (g' :: t)

/-- Source function encode_pkey (lines 163-179). Negative inputs cannot arise for
a Nat argument; n = 0 returns the empty string by the early return. -/
def encode_pkey (n : Nat) : String :=
  if n = 0 then "" else
    let out := rjust35 (encodeDigits n)
    ⟨joinDash (segs5 out.length out)⟩

/-- Value of one key character, KCHARS.index(char) in decode_pkey; Python str.index
raises ValueError on a character outside the alphabet. -/
def charVal (c : Char) : Except Err Nat :=
  if c ∈ kchars then .ok (kchars.indexOf c) else .error (.badKeyCharacter c)

/-- Accumulating digit loop of decode_pkey (out = out * 24 + value). -/
def decodeLoop : Nat → List Char → Except Err Nat
  | acc, [] => .ok acc
  | acc, c :: rest =>
    match charVal c with
    | .error e => .error e
    | .ok v => decodeLoop (acc * 24 + v) rest

/-- Dash stripping, key.replace("-", "") in decode_pkey. -/
def stripDashes (l : List Char) : List Char := l.filter (fun c => !(c == '-'))

/-- Source function decode_pkey (lines 182-196). -/
def decode_pkey (key : String) : Except Err Nat :=
  let ks := stripDashes key.data
  if ks.length % 5 ≠ 0 then .error .badKeyLength
  else decodeLoop 0 ks

/-- Key-scheduling step of rc4, one iteration of the first loop of the source. -/
def rc4ksaStep (key : List Nat) (sj : List Nat × Nat) (i : Nat) : List Nat × Nat :=
  let s := sj.1
  let j := sj.2
  let j' := (j + s.getD i 0 + key.getD (i % key.length) 0) % 256
  ((s.set i (s.getD j' 0)).set j' (s.getD i 0), j')

/-- Key scheduling of rc4: 256 swap rounds starting from the identity permutation. -/
def rc4ksa (key : List Nat) : List Nat :=
  ((List.range 256).foldl (rc4ksaStep key) (List.range 256, 0)).1

/-- Pseudo-random generation loop of rc4. The state update does not depend on the
data byte, which is xored with the keystream byte s[(s[i] + s[j]) % 256]. -/
def rc4prga : List Nat × Nat × Nat → List Nat → List Nat
  | _, [] => []
  | (s, i, j), b :: rest =>
    let i' := (i + 1) % 256
    let j' := (j + s.getD i' 0) % 256
    let s' := (s.set i' (s.getD j' 0)).set j' (s.getD i' 0)
    let k := s'.getD ((s'.getD i' 0 + s'.getD j' 0) % 256) 0
    (b ^^^ k) :: rc4prga (s', i', j') rest

/-- Source function rc4 (lines 199-219): key scheduling, then the generation loop
started from i = j = 0. -/
def rc4 (key data : List Nat) : List Nat := rc4prga (rc4ksa key, 0, 0) data

/-- Little-endian byte digits of n over len positions, the payload of
n.to_bytes(length, byteorder="little"). -/
def natToBytesLe : Nat → Nat → List Nat
  | _, 0 => []
  | n, len + 1 => n % 256 :: natToBytesLe (n / 256) len

/-- Source function bigint_to_bytes_le (lines 153-155); Python int.to_bytes raises
OverflowError when the value does not fit in the requested width. -/
def bigint_to_bytes_le (n len : Nat) : Except Err (List Nat) :=
  if n < 256 ^ len then .ok (natToBytesLe n len) else .error .byteOverflow

/-- Source function bytes_to_bigint_le (lines 158-160). -/
def bytes_to_bigint_le (data : List Nat) : Nat :=
  data.foldr (fun b acc => acc * 256 + b) 0

/-- Decimal digit characters accepted by the model of the Python int() builtin. -/
def digitChars : List Char := ['0', '1', '2', '3', '4', '5', '6', '7', '8', '9']

/-- Modelled from the external Python builtin int() used by get_spkid: a non-empty
all-digit string parses to its decimal value, anything else fails with ValueError. -/
def parseDecimal (l : List Char) : Except Err Nat :=
  if l.isEmpty then .error .badDecimal
  else if l.all (fun c => decide (c ∈ digitChars)) then
    .ok (l.foldl (fun a c => a * 10 + (c.toNat - 48)) 0)
  else .error .badDecimal

/-- Source function get_spkid (lines 222-232): slices pid[10:16] and pid[18:23],
first dash-separated field of their concatenation, decimal parse. -/
def get_spkid (pid : String) : Except Err Nat :=
  if pid.length < 23 then .error .invalidPid
  else
    let spkid_part1 := (pid.data.drop 10).take 6
    let spkid_part2 := (pid.data.drop 18).take 5
    let combined := spkid_part1 ++ spkid_part2
    let spkid_str := combined.takeWhile (fun c => !(c == '-'))
    parseDecimal spkid_str

/-- Mask 0x7FFFFFFFFF for the 35-bit hash component. -/
def mask35 : Nat := 0x7FFFFFFFFF

/-- Mask 0x1FFFFFFFFFFFFFFFFF for the 69-bit signature component. -/
def mask69 : Nat := 0x1FFFFFFFFFFFFFFFFF

/-- Mask 0x1FFFFFFFFFF for the 41-bit SPK ID field of the inner payload. -/
def mask41 : Nat := 0x1FFFFFFFFFF

/-- Hash truncation shared by generate_tskey (lines 329-332) and validate_tskey
(lines 280-283): two little-endian 32-bit words of the digest, the second shifted
down 29 bits and recombined above the first. -/
def computeH (md : List Nat) : Nat :=
  let part1 := bytes_to_bigint_le (md.take 4)
  let part2 := bytes_to_bigint_le ((md.drop 4).take 4) >>> 29
  (part2 <<< 32) ||| part1

/-- Signature scalar of one attempt of generate_tskey (line 335):
s = (c_nonce - curve.priv * h) % curve.n, computed with Python signed modulo. -/
def sOfNonce (cv_priv cv_n c_nonce h : Nat) : Nat :=
  (((c_nonce : Int) - (cv_priv : Int) * (h : Int)) % (cv_n : Int)).toNat

/-- Acceptance test of generate_tskey (line 342): an attempt is kept exactly when
s is unchanged by the 69-bit mask and strictly below the mask value. -/
def acceptSig (s : Nat) : Bool :=
  !(!(s &&& mask69 == s) || decide (s &&& mask69 ≥ mask69))

/-- Signature packing of generate_tskey (line 346): sigdata = (s_masked << 35) | h_masked. -/
def packSig (s h : Nat) : Nat := ((s &&& mask69) <<< 35) ||| (h &&& mask35)

/-- Fuel-indexed extended Euclid of mod_inverse (lines 75-81); fuel = first
argument + 1 always suffices because the first argument strictly decreases. -/
def extended_gcd : Nat → Nat → Nat → Nat × Int × Int
  | 0, _, b => (b, 0, 1)
  | fuel + 1, a, b =>
    if a = 0 then (b, 0, 1)
    else
      let r := extended_gcd fuel (b % a) a
      (r.1, r.2.2 - ((b : Int) / (a : Int)) * r.2.1, r.2.1)

/-- Source function mod_inverse (lines 73-86). The Python entry point reduces a
modulo m first, so the Euclid arguments are non-negative; the failure models the
raised ValueError when the gcd is not 1. -/
def mod_inverse (a : Int) (m : Nat) : Except Err Nat :=
  let a' := (a % (m : Int)).toNat
  let r := extended_gcd (a' + 1) a' m
  if r.1 ≠ 1 then .error .noModularInverse
  else .ok (((r.2.1 % (m : Int) + (m : Int)) % (m : Int)).toNat)

/-- Curve parameter record, the shape of the source classes SPKCurve and LKPCurve. -/
structure Curve where
  a : Nat
  b : Nat
  p : Nat
  n : Nat
  Gx : Nat
  Gy : Nat
  Kx : Nat
  Ky : Nat
  priv : Nat

/-- Source class EllipticCurvePoint: affine coordinates and an infinity flag. -/
structure EllipticCurvePoint where
  x : Nat
  y : Nat
  infinity : Bool
  deriving DecidableEq

/-- Point at infinity, the classmethod infinity_point. -/
def infinityPoint : EllipticCurvePoint := { x := 0, y := 0, infinity := true }

/-- Point addition, the method EllipticCurvePoint.__add__ (lines 105-132).
Intermediate values are computed over Int because the Python differences can be
negative before the % p reduction; mod_inverse failures propagate. -/
def ecAdd (cv : Curve) (P Q : EllipticCurvePoint) : Except Err EllipticCurvePoint :=
  if P.infinity then .ok { x := Q.x, y := Q.y, infinity := Q.infinity }
  else if Q.infinity then .ok { x := P.x, y := P.y, infinity := P.infinity }
  else if P.x = Q.x then
    if P.y = Q.y then
      match mod_inverse (2 * (P.y : Int)) cv.p with
      | .error e => .error e
      | .ok inv =>
        let s : Int := ((3 * (P.x : Int) * (P.x : Int) + (cv.a : Int)) * (inv : Int)) % (cv.p : Int)
        let x3 : Int := (s * s - (P.x : Int) - (Q.x : Int)) % (cv.p : Int)
        let y3 : Int := (s * ((P.x : Int) - x3) - (P.y : Int)) % (cv.p : Int)
        .ok { x := x3.toNat, y := y3.toNat, infinity := false }
    else .ok infinityPoint
  else
    match mod_inverse ((Q.x : Int) - (P.x : Int)) cv.p with
    | .error e => .error e
    | .ok inv =>
      let s : Int := (((Q.y : Int) - (P.y : Int)) * (inv : Int)) % (cv.p : Int)
      let x3 : Int := (s * s - (P.x : Int) - (Q.x : Int)) % (cv.p : Int)
      let y3 : Int := (s * ((P.x : Int) - x3) - (P.y : Int)) % (cv.p : Int)
      .ok { x := x3.toNat, y := y3.toNat, infinity := false }

/-- Fuel-indexed double-and-add loop of EllipticCurvePoint.__mul__ (lines 141-150);
fuel = scalar + 1 always suffices because the scalar at least halves each round. -/
def ecMulLoop (cv : Curve) :
    Nat → EllipticCurvePoint → EllipticCurvePoint → Nat → Except Err EllipticCurvePoint
  | 0, result, _, _ => .ok result
  | fuel + 1, result, addend, scalar =>
    if scalar = 0 then .ok result
    else
      match (if scalar &&& 1 = 1 then ecAdd cv result addend else .ok result) with
      | .error e => .error e
      | .ok result' =>
        match ecAdd cv addend addend with
        | .error e => .error e
        | .ok addend' => ecMulLoop cv fuel result' addend' (scalar >>> 1)

/-- Scalar multiplication, the method EllipticCurvePoint.__mul__; a zero scalar
yields infinity, and a negative scalar cannot arise for a Nat argument. -/
def ecMul (cv : Curve) (P : EllipticCurvePoint) (scalar : Nat) : Except Err EllipticCurvePoint :=
  if scalar = 0 then .ok infinityPoint
  else ecMulLoop cv (scalar + 1) infinityPoint P scalar

/-- Source curve parameters for SPK (class SPKCurve, lines 48-57). -/
def SPKCurve : Curve :=
  { a := 1
  , b := 0
  , p := 21782971228112002125810473336838725345308036616026120243639513697227789232461459408261967852943809534324870610618161
  , n := 629063109922370885449
  , Gx := 10692194187797070010417373067833672857716423048889432566885309624149667762706899929433420143814127803064297378514651
  , Gy := 14587399915883137990539191966406864676102477026583239850923355829082059124877792299572208431243410905713755917185109
  , Kx := 3917395608307488535457389605368226854270150445881753750395461980792533894109091921400661704941484971683063487980768
  , Ky := 8858262671783403684463979458475735219807686373661776500155868309933327116988404547349319879900761946444470688332645
  , priv := 153862071918555979944 }

/-- Source curve parameters for LKP (class LKPCurve, lines 61-70). -/
def LKPCurve : Curve :=
  { a := 1
  , b := 0
  , p := 28688293616765795404141427476803815352899912533728694325464374376776313457785622361119232589082131818578591461837297
  , n := 675048016158598417213
  , Gx := 18999816458520350299014628291870504329073391058325678653840191278128672378485029664052827205905352913351648904170809
  , Gy := 7233699725243644729688547165924232430035643592445942846958231777803539836627943189850381859836033366776176689124317
  , Kx := 7147768390112741602848314103078506234267895391544114241891627778383312460777957307647946308927283757886117119137500
  , Ky := 20525272195909974311677173484301099561025532568381820845650748498800315498040161314197178524020516408371544778243934
  , priv := 100266970209474387075 }

/-- UTF-16-LE encoding of the PID (pid.encode("utf-16-le")), modelled for BMP code
points, which covers every ASCII PID. -/
def pidUtf16le (pid : String) : List Nat :=
  (pid.data.map (fun c => [c.toNat % 256, (c.toNat >>> 8) % 256])).flatten

/-- RC4 key derivation shared by generate_tskey and validate_tskey (lines 241-244):
MD5 of the UTF-16-LE PID, first five digest bytes, zero padded to 16 bytes. The
md5f argument stands for the external hashlib.md5 facility. -/
def rc4KeyOfPid (md5f : List Nat → List Nat) (pid : String) : List Nat :=
  (md5f (pidUtf16le pid)).take 5 ++ List.replicate 11 0

/-- Body of validate_tskey inside the try block (lines 237-298). Every
lower-layer failure is an error here, mirroring the Python exceptions; md5f and
sha1f stand for the external hashlib facilities. -/
def validateBody (md5f sha1f : List Nat → List Nat) (pid tskey : String)
    (cv : Curve) (is_spk : Bool) : Except Err Bool :=
  match decode_pkey tskey with
  | .error e => .error e
  | .ok keydata_int =>
    match bigint_to_bytes_le keydata_int 21 with
    | .error e => .error e
    | .ok keydata_bytes =>
      let dc_kdata := rc4 (rc4KeyOfPid md5f pid) keydata_bytes
      if dc_kdata.length < 21 then .ok false
      else
        let keydata_inner := dc_kdata.take 7
        let sigdata := bytes_to_bigint_le (dc_kdata.drop 7)
        let h := sigdata &&& mask35
        let s := (sigdata >>> 35) &&& mask69
        match ecMul cv { x := cv.Kx, y := cv.Ky, infinity := false } h with
        | .error e => .error e
        | .ok hK =>
          match ecMul cv { x := cv.Gx, y := cv.Gy, infinity := false } s with
          | .error e => .error e
          | .ok sG =>
            match ecAdd cv hK sG with
            | .error e => .error e
            | .ok R =>
              if R.infinity then .ok false
              else
                match bigint_to_bytes_le R.x 48 with
                | .error e => .error e
                | .ok Rx =>
                  match bigint_to_bytes_le R.y 48 with
                  | .error e => .error e
                  | .ok Ry =>
                    let md := sha1f (keydata_inner ++ Rx ++ Ry)
                    if h ≠ computeH md then .ok false
                    else if is_spk then
                      match get_spkid pid with
                      | .error e => .error e
                      | .ok spkid_from_pid =>
                        .ok (bytes_to_bigint_le keydata_inner &&& mask41 == spkid_from_pid)
                    else .ok true

/-- Source function validate_tskey (lines 235-304): the surrounding try/except
converts every raised exception into the boolean False. -/
def validate_tskey (md5f sha1f : List Nat → List Nat) (pid tskey : String)
    (cv : Curve) (is_spk : Bool) : Bool :=
  match validateBody md5f sha1f pid tskey cv is_spk with
  | .ok b => b
  | .error _ => false

/-- Payload binding checked by the SPK branch of validate_tskey (lines 291-296):
the low 41 bits of the decrypted inner payload against the SPK ID parsed from the
PID, any lower-layer failure counting as a mismatch. -/
def spkBinding (md5f : List Nat → List Nat) (pid tskey : String) : Bool :=
  match decode_pkey tskey with
  | .error _ => false
  | .ok keydata_int =>
    match bigint_to_bytes_le keydata_int 21 with
    | .error _ => false
    | .ok keydata_bytes =>
      let dc_kdata := rc4 (rc4KeyOfPid md5f pid) keydata_bytes
      match get_spkid pid with
      | .error _ => false
      | .ok spkid_from_pid =>
        bytes_to_bigint_le (dc_kdata.take 7) &&& mask41 == spkid_from_pid

/-- Version encoding of generate_lkp (lines 379-382): version starts at 1 and is
replaced by (major << 3) | minor only when major is 5 with positive minor, or
greater than 5. -/
def lkpVersionCode (major_ver minor_ver : Nat) : Nat :=
  if (major_ver = 5 ∧ minor_ver > 0) ∨ major_ver > 5
  then (major_ver <<< 3) ||| minor_ver
  else 1

/- Helper lemmas -/

theorem or_ge_eight_of_ne_zero {a b : Nat} (h : a ≠ 0) : 8 ≤ (a <<< 3) ||| b := by
  obtain ⟨i, hi⟩ := Nat.ne_zero_implies_bit_true h
  have hbit : ((a <<< 3) ||| b).testBit (i + 3) = true := by
    rw [Nat.testBit_or, Nat.testBit_shiftLeft]
    simp [hi]
  calc (8 : Nat) = 2 ^ 3 := by norm_num
    _ ≤ 2 ^ (i + 3) := Nat.pow_le_pow_right (by norm_num) (by omega)
    _ ≤ (a <<< 3) ||| b := Nat.testBit_implies_ge hbit

theorem bytes_to_bigint_le_lt (l : List Nat) (h : ∀ b ∈ l, b < 256) :
    bytes_to_bigint_le l < 256 ^ l.length := by
  induction l with
  | nil => simp [bytes_to_bigint_le]
  | cons b t ih =>
    have hb : b < 256 := h b (by simp)
    have ht := ih (fun x hx => h x (by simp [hx]))
    simp only [bytes_to_bigint_le, List.foldr_cons, List.length_cons] at *
    have h2 : (List.foldr (fun b acc => acc * 256 + b) 0 t + 1) * 256 ≤ 256 ^ t.length * 256 :=
      Nat.mul_le_mul_right 256 ht
    rw [pow_succ]
    omega

theorem computeH_lt (md : List Nat) (h : ∀ b ∈ md, b < 256) : computeH md < 2 ^ 35 := by
  have h1 : bytes_to_bigint_le (md.take 4) < 2 ^ 32 := by
    calc bytes_to_bigint_le (md.take 4) < 256 ^ (md.take 4).length :=
          bytes_to_bigint_le_lt _ (fun b hb => h b (List.take_subset _ _ hb))
      _ ≤ 256 ^ 4 := Nat.pow_le_pow_right (by norm_num) (by simp [List.length_take])
      _ = 2 ^ 32 := by norm_num
  have h2 : bytes_to_bigint_le ((md.drop 4).take 4) < 2 ^ 32 := by
    calc bytes_to_bigint_le ((md.drop 4).take 4) < 256 ^ ((md.drop 4).take 4).length :=
          bytes_to_bigint_le_lt _
            (fun b hb => h b (List.drop_subset _ _ (List.take_subset _ _ hb)))
      _ ≤ 256 ^ 4 := Nat.pow_le_pow_right (by norm_num) (by simp [List.length_take])
      _ = 2 ^ 32 := by norm_num
  have h3 : bytes_to_bigint_le ((md.drop 4).take 4) >>> 29 < 2 ^ 3 := by
    rw [Nat.shiftRight_eq_div_pow]
    exact (Nat.div_lt_iff_lt_mul (by norm_num)).mpr (by norm_num at h2 ⊢; omega)
  unfold computeH
  apply Nat.or_lt_two_pow
  · rw [Nat.shiftLeft_eq]
    calc bytes_to_bigint_le ((md.drop 4).take 4) >>> 29 * 2 ^ 32 < 2 ^ 3 * 2 ^ 32 :=
          mul_lt_mul_of_pos_right h3 (by positivity)
      _ = 2 ^ 35 := by norm_num
  · exact lt_trans h1 (by norm_num)

theorem natToBytesLe_length (n len : Nat) : (natToBytesLe n len).length = len := by
  induction len generalizing n with
  | zero => rfl
  | succ k ih => simp [natToBytesLe, ih]

theorem natToBytesLe_getD (len : Nat) : ∀ n i, i < len →
    (natToBytesLe n len).getD i 0 = n / 256 ^ i % 256 := by
  induction len with
  | zero => omega
  | succ k ih =>
    intro n i hi
    cases i with
    | zero => simp [natToBytesLe]
    | succ j =>
      have hstep : (natToBytesLe n (k + 1)).getD (j + 1) 0 = (natToBytesLe (n / 256) k).getD j 0 := rfl
      rw [hstep, ih (n / 256) j (by omega), Nat.div_div_eq_div_mul]
      congr 2
      ring

theorem acceptSig_eq_true {s : Nat} (h : acceptSig s = true) :
    s &&& mask69 = s ∧ s < mask69 := by
  rw [acceptSig, Bool.not_eq_true', Bool.or_eq_false_iff] at h
  obtain ⟨h1, h2⟩ := h
  rw [Bool.not_eq_false', beq_iff_eq] at h1
  rw [decide_eq_false_iff_not, Nat.not_le] at h2
  exact ⟨h1, h1 ▸ h2⟩

/- Claim C4 -/

/-- Claim C4: every signature the generator accepts (an attempt that passes the
mask test of line 342 and reaches the packing step) has s strictly below
2^69 - 1 and h strictly below 2^35, so the packed 14-byte sigdata exists and has
its top byte, hence its top 8 bits, zero. -/
theorem generator_sig_bounds (cv_priv cv_n c_nonce : Nat) (md : List Nat)
    (hmd : ∀ b ∈ md, b < 256)
    (hacc : acceptSig (sOfNonce cv_priv cv_n c_nonce (computeH md)) = true) :
    sOfNonce cv_priv cv_n c_nonce (computeH md) < 2 ^ 69 - 1 ∧
    computeH md < 2 ^ 35 ∧
    packSig (sOfNonce cv_priv cv_n c_nonce (computeH md)) (computeH md) < 2 ^ 104 ∧
    ∃ bs, bigint_to_bytes_le
        (packSig (sOfNonce cv_priv cv_n c_nonce (computeH md)) (computeH md)) 14 = .ok bs ∧
      bs.length = 14 ∧ bs.getD 13 0 = 0 := by
  obtain ⟨ha, hlt⟩ := acceptSig_eq_true hacc
  have hm69 : mask69 = 2 ^ 69 - 1 := by norm_num [mask69]
  have hh := computeH_lt md hmd
  have hs69 : sOfNonce cv_priv cv_n c_nonce (computeH md) < 2 ^ 69 - 1 := hm69 ▸ hlt
  have hpack : packSig (sOfNonce cv_priv cv_n c_nonce (computeH md)) (computeH md) < 2 ^ 104 := by
    apply Nat.or_lt_two_pow
    · rw [Nat.shiftLeft_eq, ha]
      have hs : sOfNonce cv_priv cv_n c_nonce (computeH md) < 2 ^ 69 := by omega
      calc sOfNonce cv_priv cv_n c_nonce (computeH md) * 2 ^ 35 < 2 ^ 69 * 2 ^ 35 :=
            mul_lt_mul_of_pos_right hs (by positivity)
        _ = 2 ^ 104 := by norm_num
    · have hle : computeH md &&& mask35 ≤ mask35 := Nat.and_le_right
      have hm35 : mask35 < 2 ^ 104 := by norm_num [mask35]
      omega
  refine ⟨hs69, hh, hpack,
    natToBytesLe (packSig (sOfNonce cv_priv cv_n c_nonce (computeH md)) (computeH md)) 14,
    ?_, natToBytesLe_length _ _, ?_⟩
  · have hfit : packSig (sOfNonce cv_priv cv_n c_nonce (computeH md)) (computeH md) < 256 ^ 14 := by
      calc packSig (sOfNonce cv_priv cv_n c_nonce (computeH md)) (computeH md) < 2 ^ 104 := hpack
        _ < 256 ^ 14 := by norm_num
    unfold bigint_to_bytes_le
    rw [if_pos hfit]
  · rw [natToBytesLe_getD 14 _ 13 (by omega)]
    have hz : packSig (sOfNonce cv_priv cv_n c_nonce (computeH md)) (computeH md) / 256 ^ 13 = 0 :=
      Nat.div_eq_of_lt (by
        calc packSig (sOfNonce cv_priv cv_n c_nonce (computeH md)) (computeH md) < 2 ^ 104 := hpack
          _ = 256 ^ 13 := by norm_num)
    rw [hz]

/-- Witness for generator_sig_bounds: the all-zero digest with nonce 1, private
scalar 0 and group order 2 yields s = 1, which the mask test accepts. -/
theorem generator_sig_bounds_witness :
    (∀ b ∈ [0, 0, 0, 0, 0, 0, 0, 0], b < 256) ∧
    acceptSig (sOfNonce 0 2 1 (computeH [0, 0, 0, 0, 0, 0, 0, 0])) = true ∧
    sOfNonce 0 2 1 (computeH [0, 0, 0, 0, 0, 0, 0, 0]) < 2 ^ 69 - 1 := by
  refine ⟨by decide, by decide, ?_⟩
  exact (generator_sig_bounds 0 2 1 [0, 0, 0, 0, 0, 0, 0, 0] (by decide) (by decide)).1

/- Claim C3 -/

/-- Counterexample for claim C3: at major = 4, minor = 0 the claim demands the
code (4 << 3) | 0 = 32, but generate_lkp computes 1, and the computed 1 is not
obtained from major = 5 with minor = 0. -/
theorem version_code_cex :
    lkpVersionCode 4 0 = 1 ∧ (4 <<< 3) ||| 0 = 32 ∧
    lkpVersionCode 4 0 ≠ (4 <<< 3) ||| 0 ∧ ¬((4 : Nat) = 5 ∧ (0 : Nat) = 0) := by
  decide

/-- Amended claim C3: the version code is 1 exactly when major < 5, or major = 5
with minor = 0; it is (major << 3) | minor whenever major > 5 or major = 5 with
positive minor. -/
theorem version_code_cases (major minor : Nat) :
    (lkpVersionCode major minor = 1 ↔ (major < 5 ∨ (major = 5 ∧ minor = 0))) ∧
    ((major > 5 ∨ (major = 5 ∧ minor ≠ 0)) →
      lkpVersionCode major minor = (major <<< 3) ||| minor) := by
  unfold lkpVersionCode
  by_cases hc : (major = 5 ∧ minor > 0) ∨ major > 5
  · rw [if_pos hc]
    constructor
    · constructor
      · intro h1
        have : major ≠ 0 := by omega
        have := or_ge_eight_of_ne_zero (b := minor) this
        omega
      · intro h
        omega
    · intro _
      rfl
  · rw [if_neg hc]
    constructor
    · constructor
      · intro _
        omega
      · intro _
        rfl
    · intro h
      exact absurd (by omega : (major = 5 ∧ minor > 0) ∨ major > 5) hc

/-- Witness for version_code_cases: major 10, minor 2 uses the formula, giving
(10 << 3) | 2 = 82, while major 4, minor 0 gives code 1. -/
theorem version_code_cases_witness :
    lkpVersionCode 10 2 = (10 <<< 3) ||| 2 ∧ lkpVersionCode 4 0 = 1 := by
  constructor
  · exact (version_code_cases 10 2).2 (Or.inl (by decide))
  · exact (version_code_cases 4 0).1.mpr (Or.inl (by decide))

/- Claim C5 -/

/-- Claim C5: validate_tskey always returns a boolean verdict, and every error of
the underlying body (bad key length, bad character, oversized decoded integer,
modular inverse failure, PID parse failure) is converted to the Invalid result. -/
theorem validate_total (md5f sha1f : List Nat → List Nat) (pid tskey : String)
    (cv : Curve) (is_spk : Bool) :
    (validate_tskey md5f sha1f pid tskey cv is_spk = true ∨
      validate_tskey md5f sha1f pid tskey cv is_spk = false) ∧
    (∀ e, validateBody md5f sha1f pid tskey cv is_spk = .error e →
      validate_tskey md5f sha1f pid tskey cv is_spk = false) := by
  constructor
  · cases validate_tskey md5f sha1f pid tskey cv is_spk
    · exact Or.inr rfl
    · exact Or.inl rfl
  · intro e he
    unfold validate_tskey
    rw [he]

/-- Witness for validate_total at a malformed key with any stand-in hash
functions: the bad character error raised inside decode_pkey becomes Invalid. -/
theorem validate_total_witness :
    validateBody (fun _ => List.replicate 16 0) (fun _ => List.replicate 20 0)
      "x" "AAAAA" SPKCurve true = .error (.badKeyCharacter 'A') ∧
    validate_tskey (fun _ => List.replicate 16 0) (fun _ => List.replicate 20 0)
      "x" "AAAAA" SPKCurve true = false := by
  have h : validateBody (fun _ => List.replicate 16 0) (fun _ => List.replicate 20 0)
      "x" "AAAAA" SPKCurve true = .error (.badKeyCharacter 'A') := by rfl
  exact ⟨h, (validate_total (fun _ => List.replicate 16 0) (fun _ => List.replicate 20 0)
    "x" "AAAAA" SPKCurve true).2 _ h⟩

/- Claim C7 -/

theorem rc4prga_invol (d : List Nat) : ∀ st, rc4prga st (rc4prga st d) = d := by
  induction d with
  | nil => intro _; rfl
  | cons b rest ih =>
    intro st
    obtain ⟨s, i, j⟩ := st
    simp only [rc4prga]
    rw [ih]
    rw [Nat.xor_assoc, Nat.xor_self, Nat.xor_zero]

/-- Claim C7: rc4 encryption and decryption are the same operation; applying rc4
twice with the same non-empty key restores the data. -/
theorem rc4_involution (key data : List Nat) (_hkey : key ≠ []) :
    rc4 key (rc4 key data) = data :=
  rc4prga_invol data (rc4ksa key, 0, 0)

/-- Witness for rc4_involution on the key [1, 2, 3] and data [10, 20, 30, 255]. -/
theorem rc4_involution_witness :
    ([1, 2, 3] : List Nat) ≠ [] ∧
    rc4 [1, 2, 3] (rc4 [1, 2, 3] [10, 20, 30, 255]) = [10, 20, 30, 255] :=
  ⟨by decide, rc4_involution [1, 2, 3] [10, 20, 30, 255] (by decide)⟩

/- Claim C8 -/

theorem decodeLoop_spec (l : List Char) : ∀ acc,
    decodeLoop acc l =
      match l.find? (fun c => !(decide (c ∈ kchars))) with
      | some c => .error (.badKeyCharacter c)
      | none => .ok (l.foldl (fun a c => a * 24 + kchars.indexOf c) acc) := by
  induction l with
  | nil => intro _; rfl
  | cons c rest ih =>
    intro acc
    by_cases hc : c ∈ kchars
    · simp only [decodeLoop, charVal, if_pos hc, List.find?_cons, hc, List.foldl_cons]
      simp [hc]
      exact ih _
    · simp only [decodeLoop, charVal, if_neg hc, List.find?_cons, hc, List.foldl_cons]
      simp [hc]

/-- Claim C8: decode_pkey strips dashes, rejects lengths that are not a multiple
of five with the bad-length error, rejects the first remaining character outside
the alphabet with a bad-character error, and otherwise returns the base-24
big-endian value of the remaining characters. -/
theorem decode_pkey_spec (key : String) :
    decode_pkey key =
      if (stripDashes key.data).length % 5 ≠ 0 then .error .badKeyLength
      else
        match (stripDashes key.data).find? (fun c => !(decide (c ∈ kchars))) with
        | some c => .error (.badKeyCharacter c)
        | none => .ok ((stripDashes key.data).foldl (fun a c => a * 24 + kchars.indexOf c) 0) := by
  unfold decode_pkey
  by_cases h : (stripDashes key.data).length % 5 ≠ 0
  · rw [if_pos h, if_pos h]
  · rw [if_neg h, if_neg h]
    exact decodeLoop_spec _ 0

/- Claim C9 -/

/-- Claim C9: decode_pkey accepts the empty string and any all-dash string,
returning 0, and decoding the encoding of 0 gives back 0. -/
theorem decode_pkey_degenerate :
    (∀ key : String, (∀ c ∈ key.data, c = '-') → decode_pkey key = .ok 0) ∧
    decode_pkey (encode_pkey 0) = .ok 0 := by
  constructor
  · intro key h
    have hnil : stripDashes key.data = [] := by
      apply List.filter_eq_nil_iff.mpr
      intro c hc
      simp [h c hc]
    unfold decode_pkey
    rw [hnil]
    rfl
  · rfl

/-- Witness for decode_pkey_degenerate at the all-dash string. -/
theorem decode_pkey_degenerate_witness : decode_pkey "---" = .ok 0 :=
  decode_pkey_degenerate.1 "---" (by decide)

/- Claim C10 -/

theorem foldl10_lt (l : List Char) : ∀ acc, (∀ c ∈ l, c ∈ digitChars) →
    l.foldl (fun a c => a * 10 + (c.toNat - 48)) acc < (acc + 1) * 10 ^ l.length := by
  induction l with
  | nil =>
    intro acc _
    simp [Nat.lt_succ_self]
  | cons c rest ih =>
    intro acc h
    have hd : c.toNat - 48 < 10 := by
      have hdig : ∀ x ∈ digitChars, x.toNat - 48 < 10 := by decide
      exact hdig c (h c (by simp))
    simp only [List.foldl_cons, List.length_cons]
    calc rest.foldl (fun a c => a * 10 + (c.toNat - 48)) (acc * 10 + (c.toNat - 48))
        < (acc * 10 + (c.toNat - 48) + 1) * 10 ^ rest.length :=
          ih _ (fun x hx => h x (by simp [hx]))
      _ ≤ ((acc + 1) * 10) * 10 ^ rest.length :=
          Nat.mul_le_mul_right _ (by omega)
      _ = (acc + 1) * 10 ^ (rest.length + 1) := by ring

theorem parseDecimal_lt (l : List Char) (v : Nat) (h : parseDecimal l = .ok v) :
    v < 10 ^ l.length := by
  unfold parseDecimal at h
  by_cases he : l.isEmpty
  · rw [if_pos he] at h
    exact absurd h (by simp)
  · rw [if_neg he] at h
    by_cases ha : l.all (fun c => decide (c ∈ digitChars))
    · rw [if_pos ha, Except.ok.injEq] at h
      have hmem : ∀ c ∈ l, c ∈ digitChars := by
        intro c hc
        have := List.all_eq_true.mp ha c hc
        exact of_decide_eq_true this
      have := foldl10_lt l 0 hmem
      omega
    · rw [if_neg ha] at h
      exact absurd h (by simp)

/-- Claim C10: whenever get_spkid succeeds, the SPK ID came from at most 11
decimal digits, so it is below 10^11 and hence below 2^41, and the 7-byte
little-endian serialisation performed by generate_spk always succeeds with
exactly 7 bytes, leaving its error branch unreachable. -/
theorem spkid_bound (pid : String) (v : Nat) (h : get_spkid pid = .ok v) :
    v < 10 ^ 11 ∧ v < 2 ^ 41 ∧
    ∃ bs, bigint_to_bytes_le v 7 = .ok bs ∧ bs.length = 7 := by
  unfold get_spkid at h
  by_cases hl : pid.length < 23
  · rw [if_pos hl] at h
    exact absurd h (by simp)
  · rw [if_neg hl] at h
    have hlen : (((pid.data.drop 10).take 6 ++ (pid.data.drop 18).take 5).takeWhile
        (fun c => !(c == '-'))).length ≤ 11 := by
      have h1 := (List.takeWhile_sublist
        (l := (pid.data.drop 10).take 6 ++ (pid.data.drop 18).take 5)
        (fun c => !(c == '-'))).length_le
      have h2 : ((pid.data.drop 10).take 6 ++ (pid.data.drop 18).take 5).length ≤ 11 := by
        simp only [List.length_append, List.length_take]
        omega
      omega
    have hv := parseDecimal_lt _ _ h
    have hv11 : v < 10 ^ 11 :=
      lt_of_lt_of_le hv (Nat.pow_le_pow_right (by norm_num) hlen)
    have hfit : v < 256 ^ 7 := by
      calc v < 10 ^ 11 := hv11
        _ < 256 ^ 7 := by norm_num
    refine ⟨hv11, by calc v < 10 ^ 11 := hv11
        _ < 2 ^ 41 := by norm_num, natToBytesLe v 7, ?_, natToBytesLe_length _ _⟩
    unfold bigint_to_bytes_le
    rw [if_pos hfit]

/-- Witness for spkid_bound at the documented example PID, whose SPK ID is 5. -/
theorem spkid_bound_witness :
    get_spkid "00490-92005-99454-AT527" = .ok 5 ∧ (5 : Nat) < 10 ^ 11 :=
  ⟨by rfl, (spkid_bound "00490-92005-99454-AT527" 5 (by rfl)).1⟩

/- Codec lemmas for claims C1 and C2 -/

/-- Base-24 accumulating value of a character list, the loop of decode_pkey as a
fold. -/
def parse24 (acc : Nat) (l : List Char) : Nat :=
  l.foldl (fun a c => a * 24 + kchars.indexOf c) acc

theorem encodeLoop_fuel (n : Nat) : ∀ f₁ f₂, n ≤ f₁ → n ≤ f₂ →
    encodeLoop f₁ n = encodeLoop f₂ n := by
  induction n using Nat.strong_induction_on with
  | _ n ih =>
    intro f₁ f₂ h₁ h₂
    by_cases hn : n = 0
    · subst hn
      cases f₁ <;> cases f₂ <;> simp [encodeLoop]
    · obtain ⟨g₁, rfl⟩ : ∃ g, f₁ = g + 1 := ⟨f₁ - 1, by omega⟩
      obtain ⟨g₂, rfl⟩ : ∃ g, f₂ = g + 1 := ⟨f₂ - 1, by omega⟩
      have hdiv : n / 24 < n := Nat.div_lt_self (by omega) (by norm_num)
      simp only [encodeLoop, if_neg hn]
      rw [ih (n / 24) hdiv g₁ (n / 24) (by omega) (le_refl _),
        ih (n / 24) hdiv g₂ (n / 24) (by omega) (le_refl _)]

theorem encodeDigits_succ {n : Nat} (hn : n ≠ 0) :
    encodeDigits n = encodeDigits (n / 24) ++ [kchars.getD (n % 24) 'B'] := by
  obtain ⟨g, hg⟩ : ∃ g, n = g + 1 := ⟨n - 1, by omega⟩
  unfold encodeDigits
  obtain ⟨g, rfl⟩ : ∃ g, n = g + 1 := ⟨n - 1, by omega⟩
  rw [encodeLoop, if_neg (by omega)]
  congr 1
  exact encodeLoop_fuel ((g + 1) / 24) g ((g + 1) / 24) (by omega) (le_refl _)

theorem encodeDigits_eq_nil_iff (n : Nat) : encodeDigits n = [] ↔ n = 0 := by
  constructor
  · intro h
    by_contra hn
    rw [encodeDigits_succ hn] at h
    simp at h
  · intro h
    subst h
    rfl

theorem encodeDigits_length_le (k : Nat) : ∀ n, n < 24 ^ k →
    (encodeDigits n).length ≤ k := by
  induction k with
  | zero =>
    intro n hn
    interval_cases n
    simp [encodeDigits, encodeLoop]
  | succ k ih =>
    intro n hn
    by_cases hz : n = 0
    · subst hz
      simp [encodeDigits, encodeLoop]
    · rw [encodeDigits_succ hz]
      have : n / 24 < 24 ^ k := by
        rw [Nat.div_lt_iff_lt_mul (by norm_num)]
        calc n < 24 ^ (k + 1) := hn
          _ = 24 ^ k * 24 := by ring
      have := ih (n / 24) this
      simp only [List.length_append, List.length_cons, List.length_nil]
      omega

theorem encodeDigits_mem (n : Nat) : ∀ c ∈ encodeDigits n, c ∈ kchars := by
  induction n using Nat.strong_induction_on with
  | _ n ih =>
    by_cases hz : n = 0
    · subst hz
      intro c hc
      simp [encodeDigits, encodeLoop] at hc
    · rw [encodeDigits_succ hz]
      intro c hc
      rcases List.mem_append.mp hc with h | h
      · exact ih (n / 24) (Nat.div_lt_self (by omega) (by norm_num)) c h
      · have hd : n % 24 < 24 := Nat.mod_lt _ (by norm_num)
        have hget : ∀ d, d < 24 → kchars.getD d 'B' ∈ kchars := by decide
        simp only [List.mem_singleton] at h
        subst h
        exact hget _ hd

theorem parse24_append (acc : Nat) (l l' : List Char) :
    parse24 acc (l ++ l') = parse24 (parse24 acc l) l' := by
  unfold parse24
  rw [List.foldl_append]

theorem kchars_indexOf_getD : ∀ d, d < 24 → kchars.indexOf (kchars.getD d 'B') = d := by
  decide

theorem parse24_encodeDigits (n : Nat) : ∀ acc,
    parse24 acc (encodeDigits n) = acc * 24 ^ (encodeDigits n).length + n := by
  induction n using Nat.strong_induction_on with
  | _ n ih =>
    intro acc
    by_cases hz : n = 0
    · subst hz
      simp [encodeDigits, encodeLoop, parse24]
    · rw [encodeDigits_succ hz, parse24_append]
      have hd : n % 24 < 24 := Nat.mod_lt _ (by norm_num)
      have hstep : parse24 (parse24 acc (encodeDigits (n / 24))) [kchars.getD (n % 24) 'B'] =
          parse24 acc (encodeDigits (n / 24)) * 24 + n % 24 := by
        unfold parse24
        rw [List.foldl_cons, List.foldl_nil, kchars_indexOf_getD _ hd]
      rw [hstep, ih (n / 24) (Nat.div_lt_self (by omega) (by norm_num)) acc]
      simp only [List.length_append, List.length_cons, List.length_nil]
      have hsplit : (acc * 24 ^ (encodeDigits (n / 24)).length + n / 24) * 24 + n % 24 =
          acc * (24 ^ (encodeDigits (n / 24)).length * 24) + (24 * (n / 24) + n % 24) := by
        ring
      rw [hsplit, Nat.div_add_mod]
      ring

theorem decodeLoop_ok (l : List Char) (acc : Nat) (h : ∀ c ∈ l, c ∈ kchars) :
    decodeLoop acc l = .ok (parse24 acc l) := by
  rw [decodeLoop_spec l acc]
  have hnone : l.find? (fun c => !(decide (c ∈ kchars))) = none := by
    rw [List.find?_eq_none]
    intro x hx
    simp [h x hx]
  rw [hnone]
  rfl

theorem segs5_flatten (f : Nat) : ∀ l : List Char, l.length ≤ f →
    (segs5 f l).flatten = l := by
  induction f with
  | zero =>
    intro l hl
    have : l = [] := List.eq_nil_of_length_eq_zero (by omega)
    subst this
    rfl
  | succ g ih =>
    intro l hl
    by_cases he : l.isEmpty
    · rw [segs5, if_pos he]
      rw [List.isEmpty_iff] at he
      simp [he]
    · rw [segs5, if_neg he]
      rw [List.flatten_cons, ih (l.drop 5) (by simp [List.length_drop]; omega)]
      exact List.take_append_drop 5 l

theorem segs5_mem (f : Nat) : ∀ l g, g ∈ segs5 f l → ∀ c ∈ g, c ∈ l := by
  induction f with
  | zero =>
    intro l g hg
    simp [segs5] at hg
  | succ f ih =>
    intro l g hg c hc
    by_cases he : l.isEmpty
    · rw [segs5, if_pos he] at hg
      simp at hg
    · rw [segs5, if_neg he] at hg
      rcases List.mem_cons.mp hg with h | h
      · subst h
        exact List.take_subset _ _ hc
      · exact List.drop_subset _ _ (ih (l.drop 5) g h c hc)

theorem segs5_struct (k : Nat) : ∀ f (l : List Char), l.length = 5 * k → l.length ≤ f →
    (segs5 f l).length = k ∧ ∀ g ∈ segs5 f l, g.length = 5 := by
  induction k with
  | zero =>
    intro f l hl _
    have : l = [] := List.eq_nil_of_length_eq_zero (by omega)
    subst this
    cases f <;> simp [segs5]
  | succ k ih =>
    intro f l hl hf
    have hne : ¬l.isEmpty := by
      rw [List.isEmpty_iff_length_eq_zero]
      omega
    obtain ⟨g, rfl⟩ : ∃ g, f = g + 1 := ⟨f - 1, by omega⟩
    rw [segs5, if_neg hne]
    have hdl : (l.drop 5).length = 5 * k := by
      simp [List.length_drop]
      omega
    have hdf : (l.drop 5).length ≤ g := by
      simp [List.length_drop]
      omega
    obtain ⟨hcount, hlens⟩ := ih g (l.drop 5) hdl hdf
    constructor
    · simp [hcount]
    · intro gg hgg
      rcases List.mem_cons.mp hgg with h | h
      · subst h
        simp [List.length_take]
        omega
      · exact hlens gg h

theorem joinDash_length : ∀ gs : List (List Char), (∀ g ∈ gs, g.length = 5) →
    (joinDash gs).length = if gs.length = 0 then 0 else 6 * gs.length - 1 := by
  intro gs
  induction gs with
  | nil => intro _; rfl
  | cons g rest ih =>
    intro h
    cases rest with
    | nil =>
      simp [joinDash, h g (by simp)]
    | cons g' t =>
      have hrest := ih (fun x hx => h x (by simp [List.mem_cons] at hx ⊢; tauto))
      rw [joinDash]
      simp only [List.length_append, List.length_cons]
      rw [hrest]
      have hg : g.length = 5 := h g (by simp)
      simp only [List.length_cons] at *
      rw [if_neg (show ¬t.length + 1 = 0 by omega),
        if_neg (show ¬t.length + 1 + 1 = 0 by omega)]
      omega

theorem joinDash_mem_ne_dash : ∀ gs : List (List Char),
    (∀ g ∈ gs, ∀ c ∈ g, c ≠ '-') → stripDashes (joinDash gs) = gs.flatten := by
  intro gs
  induction gs with
  | nil => intro _; rfl
  | cons g rest ih =>
    intro h
    cases rest with
    | nil =>
      show stripDashes g = g ++ []
      rw [List.append_nil]
      apply List.filter_eq_self.mpr
      intro c hc
      simpa using h g (by simp) c hc
    | cons g' t =>
      have hrest := ih (fun x hx => h x (by simp [List.mem_cons] at hx ⊢; tauto))
      rw [joinDash, List.flatten_cons]
      unfold stripDashes at *
      rw [List.filter_append, List.filter_cons]
      simp only [beq_self_eq_true, Bool.not_true, if_neg (by simp : ¬false = true)]
      rw [hrest]
      congr 1
      apply List.filter_eq_self.mpr
      intro c hc
      simpa using h g (by simp) c hc

theorem rjust35_length {l : List Char} (h : l.length ≤ 35) : (rjust35 l).length = 35 := by
  unfold rjust35
  simp [List.length_append, List.length_replicate]
  omega

theorem rjust35_mem {l : List Char} (h : ∀ c ∈ l, c ∈ kchars) :
    ∀ c ∈ rjust35 l, c ∈ kchars := by
  intro c hc
  rcases List.mem_append.mp hc with hrep | hl
  · have : c = 'B' := List.eq_of_mem_replicate hrep
    subst this
    decide
  · exact h c hl

theorem encode_pkey_pos {n : Nat} (hn : n ≠ 0) :
    (encode_pkey n).data =
      joinDash (segs5 (rjust35 (encodeDigits n)).length (rjust35 (encodeDigits n))) := by
  unfold encode_pkey
  rw [if_neg hn]

theorem stripDashes_encode {n : Nat} (hn : n ≠ 0) :
    stripDashes (encode_pkey n).data = rjust35 (encodeDigits n) := by
  rw [encode_pkey_pos hn]
  have hmem : ∀ c ∈ rjust35 (encodeDigits n), c ∈ kchars := rjust35_mem (encodeDigits_mem n)
  have hnd : ∀ g ∈ segs5 (rjust35 (encodeDigits n)).length (rjust35 (encodeDigits n)),
      ∀ c ∈ g, c ≠ '-' := by
    intro g hg c hc
    have := hmem c (segs5_mem _ _ g hg c hc)
    have hdash : ('-' : Char) ∉ kchars := by decide
    intro heq
    exact hdash (heq ▸ this)
  rw [joinDash_mem_ne_dash _ hnd]
  exact segs5_flatten _ _ (le_refl _)

theorem parse24_replicateB : ∀ m, parse24 0 (List.replicate m 'B') = 0 := by
  intro m
  induction m with
  | zero => rfl
  | succ k ih =>
    show parse24 (0 * 24 + kchars.indexOf 'B') (List.replicate k 'B') = 0
    have hB : kchars.indexOf 'B' = 0 := by decide
    rw [hB] at *
    exact ih

theorem decode_encode (n : Nat) (h : n < 24 ^ 35) :
    decode_pkey (encode_pkey n) = .ok n := by
  by_cases hz : n = 0
  · subst hz
    rfl
  · have hlen : (encodeDigits n).length ≤ 35 := encodeDigits_length_le 35 n h
    have hstrip := stripDashes_encode hz
    have hbody : (rjust35 (encodeDigits n)).length = 35 := rjust35_length hlen
    unfold decode_pkey
    rw [hstrip, if_neg (by rw [hbody]; norm_num)]
    rw [decodeLoop_ok _ _ (rjust35_mem (encodeDigits_mem n))]
    unfold rjust35
    rw [parse24_append, parse24_replicateB, parse24_encodeDigits]
    simp

theorem string_length_data (s : String) : s.length = s.data.length := by
  cases s
  rfl

/- Claim C1 -/

/-- Counterexample for claim C1: encode_pkey 0 is the empty string, not the
all-B 29-character key, and encode_pkey 1 has length 41, not 29: the source pads
to 35 data characters, not 25. -/
theorem encode_pkey_claim_cex :
    encode_pkey 0 = "" ∧ encode_pkey 0 ≠ "BBBBB-BBBBB-BBBBB-BBBBB-BBBBB" ∧
    (encode_pkey 1).length = 41 ∧ (encode_pkey 1).length ≠ 29 := by
  refine ⟨rfl, by decide, by decide, by decide⟩

/-- Amended claim C1: for 0 < n < 24^35, encode_pkey n is a string of total
length 41 whose dash-stripped body has 35 characters, all from the alphabet,
arranged as seven dash-separated groups of five; and encode_pkey 0 is the empty
string. -/
theorem encode_pkey_format (n : Nat) (h0 : 0 < n) (h1 : n < 24 ^ 35) :
    (encode_pkey n).length = 41 ∧
    (stripDashes (encode_pkey n).data).length = 35 ∧
    (∀ c ∈ stripDashes (encode_pkey n).data, c ∈ kchars) ∧
    (segs5 (stripDashes (encode_pkey n).data).length
      (stripDashes (encode_pkey n).data)).length = 7 ∧
    (∀ g ∈ segs5 (stripDashes (encode_pkey n).data).length
      (stripDashes (encode_pkey n).data), g.length = 5) ∧
    (encode_pkey n).data = joinDash (segs5 (stripDashes (encode_pkey n).data).length
      (stripDashes (encode_pkey n).data)) ∧
    encode_pkey 0 = "" := by
  have hz : n ≠ 0 := by omega
  have hlen : (encodeDigits n).length ≤ 35 := encodeDigits_length_le 35 n h1
  have hstrip := stripDashes_encode hz
  have hbody : (rjust35 (encodeDigits n)).length = 35 := rjust35_length hlen
  have hmem := rjust35_mem (encodeDigits_mem n)
  obtain ⟨hcount, hlens⟩ := segs5_struct 7 (rjust35 (encodeDigits n)).length
    (rjust35 (encodeDigits n)) (by omega) (le_refl _)
  refine ⟨?_, ?_, ?_, ?_, ?_, ?_, rfl⟩
  · rw [string_length_data, encode_pkey_pos hz, joinDash_length _ hlens, hcount]
    norm_num
  · rw [hstrip]
    exact hbody
  · rw [hstrip]
    exact hmem
  · rw [hstrip]
    exact hcount
  · rw [hstrip]
    exact hlens
  · rw [hstrip]
    exact encode_pkey_pos hz

/-- Witness for encode_pkey_format at n = 1. -/
theorem encode_pkey_format_witness :
    (0 : Nat) < 1 ∧ (1 : Nat) < 24 ^ 35 ∧ (encode_pkey 1).length = 41 :=
  ⟨by decide, by decide, (encode_pkey_format 1 (by decide) (by decide)).1⟩

/- Claim C2 -/

theorem kchars_getD_indexOf : ∀ c ∈ kchars, kchars.getD (kchars.indexOf c) 'B' = c := by
  decide

theorem kchars_indexOf_lt : ∀ c ∈ kchars, kchars.indexOf c < 24 := by
  decide

theorem kchars_indexOf_eq_zero : ∀ c ∈ kchars, (kchars.indexOf c = 0 ↔ c = 'B') := by
  decide

theorem parse24_snoc (acc : Nat) (l : List Char) (c : Char) :
    parse24 acc (l ++ [c]) = parse24 acc l * 24 + kchars.indexOf c := by
  rw [parse24_append]
  unfold parse24
  rw [List.foldl_cons, List.foldl_nil]

theorem parse24_all_B {l : List Char} (h : ∀ c ∈ l, c = 'B') : parse24 0 l = 0 := by
  have := List.eq_replicate_of_mem h
  rw [this]
  exact parse24_replicateB _

theorem encodeDigits_parse24 (body : List Char) (h : ∀ c ∈ body, c ∈ kchars) :
    encodeDigits (parse24 0 body) = body.dropWhile (fun c => c == 'B') := by
  induction body using List.reverseRecOn with
  | nil => rfl
  | append_singleton l c ih =>
    have hmem : ∀ x ∈ l, x ∈ kchars := fun x hx => h x (by simp [hx])
    have hc : c ∈ kchars := h c (by simp)
    have hih := ih hmem
    have hd : kchars.indexOf c < 24 := kchars_indexOf_lt c hc
    rw [parse24_snoc, List.dropWhile_append]
    by_cases hz : parse24 0 l = 0 ∧ kchars.indexOf c = 0
    · obtain ⟨hz1, hz2⟩ := hz
      have hcB : c = 'B' := (kchars_indexOf_eq_zero c hc).mp hz2
      have hall : l.dropWhile (fun c => c == 'B') = [] := by
        rw [← hih, hz1]
        rfl
      rw [hz1, hz2, hall, hcB]
      rfl
    · have hnz : parse24 0 l * 24 + kchars.indexOf c ≠ 0 := by
        rcases Decidable.not_and_iff_or_not.mp hz with h1 | h2 <;> omega
      rw [encodeDigits_succ hnz]
      have hdiv : (parse24 0 l * 24 + kchars.indexOf c) / 24 = parse24 0 l := by omega
      have hmod : (parse24 0 l * 24 + kchars.indexOf c) % 24 = kchars.indexOf c := by omega
      rw [hdiv, hmod, hih, kchars_getD_indexOf c hc]
      by_cases he : (l.dropWhile (fun c => c == 'B')).isEmpty
      · rw [if_pos he]
        have hallB : ∀ x ∈ l, x = 'B' := by
          have := List.dropWhile_eq_nil_iff.mp (List.isEmpty_iff.mp he)
          intro x hx
          simpa using this x hx
        have hl0 : parse24 0 l = 0 := parse24_all_B hallB
        have hi0 : kchars.indexOf c ≠ 0 := by
          intro hcon
          exact hz ⟨hl0, hcon⟩
        have hcB : ¬c = 'B' := fun hcon =>
          hi0 ((kchars_indexOf_eq_zero c hc).mpr hcon)
        rw [List.isEmpty_iff.mp he]
        have hfalse : (c == 'B') = false := beq_eq_false_iff_ne.mpr hcB
        simp [List.dropWhile, hfalse]
      · rw [if_neg he]

theorem body_eq_rjust (body : List Char) (hlen : body.length = 35)
    (h : ∀ c ∈ body, c ∈ kchars) :
    rjust35 (encodeDigits (parse24 0 body)) = body := by
  rw [encodeDigits_parse24 body h]
  have htd := List.takeWhile_append_dropWhile (p := fun c => c == 'B') (l := body)
  have htw : body.takeWhile (fun c => c == 'B') =
      List.replicate (body.takeWhile (fun c => c == 'B')).length 'B' :=
    List.eq_replicate_of_mem (fun b hb => by
      have := List.mem_takeWhile_imp hb
      simpa using this)
  have hsum : (body.takeWhile (fun c => c == 'B')).length +
      (body.dropWhile (fun c => c == 'B')).length = 35 := by
    have := congrArg List.length htd
    rw [List.length_append] at this
    omega
  unfold rjust35
  have hm : 35 - (body.dropWhile (fun c => c == 'B')).length =
      (body.takeWhile (fun c => c == 'B')).length := by omega
  rw [hm, ← htw]
  exact htd

/-- Syntactic validity of a textual key against the source codec: a dash-stripped
body of 35 alphabet characters arranged as seven dash-separated groups of five. -/
def validKeyStr (s : String) : Bool :=
  decide ((stripDashes s.data).length = 35) &&
  (stripDashes s.data).all (fun c => decide (c ∈ kchars)) &&
  decide (s.data = joinDash (segs5 (stripDashes s.data).length (stripDashes s.data)))

/-- Counterexample for claim C2: the spec-format 25-character key consisting of
24 B characters and a final C is syntactically valid in the claim sense (all
characters from the alphabet, five dash-separated groups of five), decodes to 1,
but encode_pkey 1 is a 41-character string, so encode after decode does not
restore the key. -/
theorem codec_roundtrip_cex :
    decode_pkey "BBBBB-BBBBB-BBBBB-BBBBB-BBBBC" = .ok 1 ∧
    (stripDashes ("BBBBB-BBBBB-BBBBB-BBBBB-BBBBC" : String).data).length = 25 ∧
    (∀ c ∈ stripDashes ("BBBBB-BBBBB-BBBBB-BBBBB-BBBBC" : String).data, c ∈ kchars) ∧
    ("BBBBB-BBBBB-BBBBB-BBBBB-BBBBC" : String).data =
      joinDash (segs5 25 (stripDashes ("BBBBB-BBBBB-BBBBB-BBBBB-BBBBC" : String).data)) ∧
    encode_pkey 1 ≠ "BBBBB-BBBBB-BBBBB-BBBBB-BBBBC" := by
  refine ⟨by rfl, by decide, by decide, by decide, by decide⟩

/-- Amended claim C2: decode_pkey (encode_pkey n) = n for 0 ≤ n < 24^25; and
encode_pkey (decode_pkey k) = k for every syntactically valid key of the format
the code produces (35 alphabet characters in seven dash-separated groups of
five) whose decoded value is nonzero; the all-B key decodes to 0 and re-encodes
as the empty string. -/
theorem codec_roundtrip :
    (∀ n : Nat, n < 24 ^ 25 → decode_pkey (encode_pkey n) = .ok n) ∧
    (∀ (k : String) (v : Nat), validKeyStr k = true → decode_pkey k = .ok v → 0 < v →
      encode_pkey v = k) := by
  constructor
  · intro n hn
    exact decode_encode n
      (lt_of_lt_of_le hn (Nat.pow_le_pow_right (by norm_num) (by norm_num)))
  · intro k v hvalid hdec hpos
    unfold validKeyStr at hvalid
    rw [Bool.and_eq_true, Bool.and_eq_true] at hvalid
    obtain ⟨⟨h35, hall⟩, hstruct⟩ := hvalid
    rw [decide_eq_true_eq] at h35 hstruct
    have hmem : ∀ c ∈ stripDashes k.data, c ∈ kchars := by
      intro c hc
      exact of_decide_eq_true (List.all_eq_true.mp hall c hc)
    have hdec2 : decode_pkey k = .ok (parse24 0 (stripDashes k.data)) := by
      unfold decode_pkey
      rw [if_neg (by rw [h35]; norm_num)]
      exact decodeLoop_ok _ _ hmem
    rw [hdec2, Except.ok.injEq] at hdec
    subst hdec
    have hnz : parse24 0 (stripDashes k.data) ≠ 0 := by omega
    have hbody := body_eq_rjust (stripDashes k.data) h35 hmem
    have hdata := encode_pkey_pos hnz
    rw [hbody] at hdata
    apply String.ext
    rw [hdata]
    exact hstruct.symm

/-- Witness for codec_roundtrip: decoding the encoding of 7 gives 7 back, and
the valid 41-character key for 1 re-encodes to itself. -/
theorem codec_roundtrip_witness :
    decode_pkey (encode_pkey 7) = .ok 7 ∧
    encode_pkey 1 = "BBBBB-BBBBB-BBBBB-BBBBB-BBBBB-BBBBB-BBBBC" := by
  constructor
  · exact codec_roundtrip.1 7 (by decide)
  · exact codec_roundtrip.2 "BBBBB-BBBBB-BBBBB-BBBBB-BBBBB-BBBBB-BBBBC" 1
      (by decide) (by rfl) (by decide)

/- Claim C6 -/

theorem validate_eq_ok (md5f sha1f : List Nat → List Nat) (pid tskey : String)
    (cv : Curve) (is_spk : Bool) :
    validate_tskey md5f sha1f pid tskey cv is_spk = true ↔
      validateBody md5f sha1f pid tskey cv is_spk = .ok true := by
  unfold validate_tskey
  cases h : validateBody md5f sha1f pid tskey cv is_spk with
  | error e => simp
  | ok b => cases b <;> simp

theorem validateBody_spk (md5f sha1f : List Nat → List Nat) (pid tskey : String)
    (cv : Curve) :
    validateBody md5f sha1f pid tskey cv true = .ok true ↔
      (validateBody md5f sha1f pid tskey cv false = .ok true ∧
        spkBinding md5f pid tskey = true) := by
  unfold validateBody spkBinding
  cases hd : decode_pkey tskey with
  | error e => simp [hd]
  | ok ki =>
    simp only [hd]
    cases hb : bigint_to_bytes_le ki 21 with
    | error e => simp [hb]
    | ok kb =>
      simp only [hb]
      set dc := rc4 (rc4KeyOfPid md5f pid) kb with hdc
      by_cases hlen : dc.length < 21
      · simp [hlen]
      · simp only [if_neg hlen]
        set inner := dc.take 7 with hinner
        set sig := bytes_to_bigint_le (dc.drop 7) with hsig
        cases hK : ecMul cv { x := cv.Kx, y := cv.Ky, infinity := false } (sig &&& mask35) with
        | error e => simp [hK]
        | ok hKp =>
          simp only [hK]
          cases hG : ecMul cv { x := cv.Gx, y := cv.Gy, infinity := false }
              ((sig >>> 35) &&& mask69) with
          | error e => simp [hG]
          | ok sGp =>
            simp only [hG]
            cases hR : ecAdd cv hKp sGp with
            | error e => simp [hR]
            | ok R =>
              simp only [hR]
              by_cases hinf : R.infinity = true
              · simp [hinf]
              · simp only [if_neg hinf]
                cases hRx : bigint_to_bytes_le R.x 48 with
                | error e => simp [hRx]
                | ok Rx =>
                  simp only [hRx]
                  cases hRy : bigint_to_bytes_le R.y 48 with
                  | error e => simp [hRy]
                  | ok Ry =>
                    simp only [hRy]
                    by_cases hht : sig &&& mask35 ≠ computeH (sha1f (inner ++ Rx ++ Ry))
                    · simp only [if_pos hht]
                      simp
                    · simp only [if_neg hht, if_true]
                      cases hspk : get_spkid pid with
                      | error e => simp [hspk]
                      | ok spkid => simp [hspk]

/-- Claim C6: with is_spk true, validate_tskey accepts exactly when the
signature-only verdict (is_spk false) accepts and the low 41 bits of the
decrypted 7-byte inner payload equal the SPK ID parsed from the PID; with
is_spk false the signature check alone decides and no payload check is made. -/
theorem validate_spk_binding (md5f sha1f : List Nat → List Nat) (pid tskey : String)
    (cv : Curve) :
    validate_tskey md5f sha1f pid tskey cv true = true ↔
      (validate_tskey md5f sha1f pid tskey cv false = true ∧
        spkBinding md5f pid tskey = true) := by
  rw [validate_eq_ok, validate_eq_ok]
  exact validateBody_spk md5f sha1f pid tskey cv

end LyssaRDSGen
